import Mathlib

/-!
Verification of the pairpad sequence CRDT (src/crdt/woot.go) and the
server broadcast logic (src/server/main.go), as a shallow embedding.
Go slices become Lean lists, in-place mutation becomes functional update,
a Go panic (out-of-range slice index) becomes `none`, and the pair
`(result, error)` of Go becomes an explicit product with `Option Err`.
-/

namespace Pairpad

/-- Errors returned by the CRDT operations (woot.go lines 36-39). -/
inductive Err where
  | positionOutOfBounds
  | emptyWCharacter
  | boundsNotPresent
deriving DecidableEq, Repr

/-- The sentinel id of the start character. -/
def startId : String := "start"

/-- The sentinel id of the end character. -/
def endId : String := "end"

/-- The id of the pseudo-character returned by IthVisible/Find on failure. -/
def notFoundId : String := "-1"

/-- Character represents a character in the document (woot.go lines 15-21). -/
structure Character where
  ID : String
  Visible : Bool
  Value : String
  IDPrevious : String
  IDNext : String
deriving DecidableEq, Repr

/-- CharacterStart is placed at the start (woot.go line 31). -/
def CharacterStart : Character :=
  { ID := startId, Visible := false, Value := "", IDPrevious := "", IDNext := endId }

/-- CharacterEnd is placed at the end (woot.go line 34). -/
def CharacterEnd : Character :=
  { ID := endId, Visible := false, Value := "", IDPrevious := startId, IDNext := "" }

/-- The zero-valued character with ID "-1" returned by IthVisible and Find
when nothing matches (woot.go lines 74 and 132). -/
def defaultChar : Character :=
  { ID := notFoundId, Visible := false, Value := "", IDPrevious := "", IDNext := "" }

/-- Document is composed of characters (woot.go lines 9-11). -/
structure Document where
  Characters : List Character
deriving DecidableEq, Repr

/-- New returns an initialized document (woot.go lines 42-44). -/
def New : Document := ⟨[CharacterStart, CharacterEnd]⟩

/-- One step of the Content accumulation loop (woot.go lines 53-57). -/
def contentStep (acc : String) (c : Character) : String :=
  if c.Visible then acc ++ c.Value else acc

/-- Content returns the content of the document (woot.go lines 51-59). -/
def Content (doc : Document) : String :=
  doc.Characters.foldl contentStep ""

/-- Loop of IthVisible: the remaining target index t is `position - 1`
minus the number of visible characters already passed (woot.go lines 62-75). -/
def ithVisibleAux : List Character → Int → Character
  | [], _ => defaultChar
  | c :: rest, t =>
    if c.Visible then (if t = 0 then c else ithVisibleAux rest (t - 1))
    else ithVisibleAux rest t

/-- IthVisible returns the ith visible character in the document (woot.go lines 62-75). -/
def IthVisible (doc : Document) (position : Int) : Character :=
  ithVisibleAux doc.Characters (position - 1)

/-- Length returns the length of the document (woot.go lines 78-80). -/
def Length (doc : Document) : Int := (doc.Characters.length : Int)

/-- Loop of Position with the running index as accumulator (woot.go lines 92-100). -/
def positionAux : List Character → String → Int → Int
  | [], _, _ => -1
  | c :: rest, cid, idx => if cid = c.ID then idx + 1 else positionAux rest cid (idx + 1)

/-- Position returns the 1-based position of the character with the given id,
or -1 when absent (woot.go lines 92-100). -/
def Position (doc : Document) (charID : String) : Int :=
  positionAux doc.Characters charID 0

/-- Loop of Find (woot.go lines 125-133). -/
def findAux : List Character → String → Character
  | [], _ => defaultChar
  | c :: rest, cid => if c.ID = cid then c else findAux rest cid

/-- Find returns the character at the ID (woot.go lines 125-133). -/
def Find (doc : Document) (cid : String) : Character := findAux doc.Characters cid

/-- Go slice expression l[lo:hi]; `none` models the runtime panic when the
bounds are invalid. -/
def goSlice (l : List Character) (lo hi : Int) : Option (List Character) :=
  if 0 ≤ lo ∧ lo ≤ hi ∧ hi ≤ (l.length : Int) then
    some ((l.take hi.toNat).drop lo.toNat)
  else none

/-- Subseq returns the content strictly between the two characters
(woot.go lines 136-149); `none` models the slice-bounds panic. -/
def Subseq (doc : Document) (wStart wEnd : Character) : Option (List Character × Option Err) :=
  let startPosition := Position doc wStart.ID
  let endPosition := Position doc wEnd.ID
  if startPosition = -1 ∨ endPosition = -1 then some (doc.Characters, some Err.boundsNotPresent)
  else if startPosition = endPosition then some ([], none)
  else (goSlice doc.Characters startPosition (endPosition - 1)).map (fun l => (l, none))

/-- In-place update of one list element, as done by the Go statements
`doc.Characters[i].IDNext = ...` (out of range never occurs at call sites). -/
def modifyAt : List Character → Nat → (Character → Character) → List Character
  | [], _, _ => []
  | c :: rest, 0, f => f c :: rest
  | c :: rest, n + 1, f => c :: modifyAt rest n f

/-- LocalInsert inserts the character into the document at the given 1-based
slot and rewires the two neighbouring pointers (woot.go lines 156-174). -/
def LocalInsert (doc : Document) (char : Character) (position : Int) : Document × Option Err :=
  if position ≤ 0 ∨ Length doc ≤ position then (doc, some Err.positionOutOfBounds)
  else if char.ID = "" then (doc, some Err.emptyWCharacter)
  else
    let p := position.toNat
    let inserted := doc.Characters.take p ++ char :: doc.Characters.drop p
    let upd1 := modifyAt inserted (p - 1) (fun c => { c with IDNext := char.ID })
    let upd2 := modifyAt upd1 (p + 1) (fun c => { c with IDPrevious := char.ID })
    (⟨upd2⟩, none)

/-- Lexicographic comparison of character lists: the order Go uses on strings
(restricted to the ASCII ids occurring here, byte order and code-point order agree). -/
def charsLt : List Char → List Char → Bool
  | _, [] => false
  | [], _ :: _ => true
  | a :: as, b :: bs => if a < b then true else if b < a then false else charsLt as bs

/-- The string comparison `<` used by IntegrateInsert on ids (woot.go line 198). -/
def strLt (a b : String) : Bool := charsLt a.data b.data

/-- The walk loop of IntegrateInsert with explicit fuel: starting from i = 1,
advance while i < len-1 and the element id is below the new id
(woot.go lines 197-200).  A fuel of `sub.length` is always enough, so the
fuel-out case is unreachable. -/
def walkIdxFuel : Nat → List Character → String → Nat → Nat
  | 0, _, _, i => i
  | f + 1, sub, cid, i =>
    if i < sub.length - 1 ∧ strLt (sub.getD i defaultChar).ID cid then walkIdxFuel f sub cid (i + 1)
    else i

/-- The walk loop of IntegrateInsert (woot.go lines 197-200). -/
def walkIdx (sub : List Character) (cid : String) (i : Nat) : Nat :=
  walkIdxFuel sub.length sub cid i

/-- IntegrateInsert with explicit recursion fuel; the Go function recurses,
and `none` models both nontermination and an index panic (woot.go lines 178-202). -/
def integrateInsertFuel : Nat → Document → Character → Character → Character → Option (Document × Option Err)
  | 0, _, _, _, _ => none
  | fuel + 1, doc, char, charPrev, charNext =>
    match Subseq doc charPrev charNext with
    | none => none
    | some (subsequence, _) =>
      let position := Position doc charNext.ID - 1
      if subsequence.length = 0 then some (LocalInsert doc char position)
      else if subsequence.length = 1 then some (LocalInsert doc char (position - 1))
      else
        let i := walkIdx subsequence char.ID 1
        match subsequence.get? (i - 1), subsequence.get? i with
        | some a, some b => integrateInsertFuel fuel doc char a b
        | _, _ => none

/-- IntegrateInsert (woot.go lines 178-202); the fuel is generous: under the
document invariants the recursion depth is at most one. -/
def IntegrateInsert (doc : Document) (char charPrev charNext : Character) : Option (Document × Option Err) :=
  integrateInsertFuel (doc.Characters.length + 2) doc char charPrev charNext

/-- The id minted by GenerateInsert: decimal site id concatenated with the
decimal local clock (woot.go line 222). -/
def genId (site clock : Nat) : String := Nat.repr site ++ Nat.repr clock

/-- GenerateInsert generates a character for a given value (woot.go lines 205-230);
the Go globals SiteID and LocalClock are passed and returned explicitly. -/
def GenerateInsert (doc : Document) (site clock : Nat) (position : Int) (value : String) :
    Option (Document × Option Err) × Nat :=
  let clock1 := clock + 1
  let charPrev0 := IthVisible doc (position - 1)
  let charNext0 := IthVisible doc position
  let charPrev := if charPrev0.ID = notFoundId then Find doc startId else charPrev0
  let charNext := if charNext0.ID = notFoundId then Find doc endId else charNext0
  let char : Character :=
    { ID := genId site clock1, Visible := true, Value := value,
      IDPrevious := charPrev.ID, IDNext := charNext.ID }
  (IntegrateInsert doc char charPrev charNext, clock1)

/-- IntegrateDelete finds a character and marks it for deletion (woot.go lines 233-243). -/
def IntegrateDelete (doc : Document) (char : Character) : Document :=
  let position := Position doc char.ID
  if position = -1 then doc
  else ⟨modifyAt doc.Characters (position - 1).toNat (fun c => { c with Visible := false })⟩

/-- GenerateDelete generates the character which is to be marked for deletion
(woot.go lines 246-249). -/
def GenerateDelete (doc : Document) (position : Int) : Document :=
  IntegrateDelete doc (IthVisible doc position)

/-- Insert of the CRDT interface (woot.go lines 255-262); returns the visible
string, the error, and the updated local clock. -/
def Insert (doc : Document) (site clock : Nat) (position : Int) (value : String) :
    Option ((String × Option Err) × Nat) :=
  match GenerateInsert doc site clock position value with
  | (none, _) => none
  | (some (d, e), clock1) => some ((Content d, e), clock1)

/-- Delete of the CRDT interface (woot.go lines 264-267). -/
def Delete (doc : Document) (position : Int) : String :=
  Content (GenerateDelete doc position)

/-- Number of visible characters: the length of the observable text. -/
def visibleLength (doc : Document) : Nat :=
  (doc.Characters.filter (fun c => c.Visible)).length

/-- One local insert through the public path, keeping the document and the
local clock (Insert discards the document, which in Go lives behind the
receiver pointer). -/
def insertStep (site : Nat) (st : Document × Nat) (op : Int × String) : Option (Document × Nat) :=
  match GenerateInsert st.1 site st.2 op.1 op.2 with
  | (none, _) => none
  | (some (d, _), clock1) => some (d, clock1)

/-- A finite sequence of local inserts at one replica, threading the local clock. -/
def applyInserts (site : Nat) : Document × Nat → List (Int × String) → Option (Document × Nat)
  | st, [] => some st
  | st, op :: rest =>
    match insertStep site st op with
    | none => none
    | some st1 => applyInserts site st1 rest

/-! ### Decimal representation: a clean model of `Nat.repr` -/

/-- The ten decimal digit characters. -/
def digitChars : List Char := ['0', '1', '2', '3', '4', '5', '6', '7', '8', '9']

/-- Clean recursive form of the decimal digit list produced by `Nat.repr`. -/
def digitsAux (n : Nat) : List Char :=
  if _h : n < 10 then [Nat.digitChar n]
  else digitsAux (n / 10) ++ [Nat.digitChar (n % 10)]
termination_by n
decreasing_by exact Nat.div_lt_self (by omega) (by omega)

/-- Value of a decimal digit list, inverse of `digitsAux`. -/
def valDigits (l : List Char) : Nat :=
  l.foldl (fun a c => 10 * a + (c.toNat - 48)) 0

theorem toDigitsCore_eq_digitsAux (fuel : Nat) :
    ∀ n ds, n < fuel → Nat.toDigitsCore 10 fuel n ds = digitsAux n ++ ds := by
  induction fuel with
  | zero => intro n ds h; omega
  | succ f ih =>
    intro n ds h
    rw [digitsAux]
    by_cases h10 : n < 10
    · have hdiv : n / 10 = 0 := Nat.div_eq_of_lt h10
      have hmod : n % 10 = n := Nat.mod_eq_of_lt h10
      simp [Nat.toDigitsCore, hdiv, h10, hmod]
    · have hdiv : n / 10 ≠ 0 := by
        intro h0
        have := (Nat.div_eq_zero_iff (by omega)).mp h0
        omega
      have hlt : n / 10 < f := by
        have hx : n / 10 < n := Nat.div_lt_self (by omega) (by omega)
        omega
      simp only [Nat.toDigitsCore, hdiv, if_false, h10]
      rw [ih (n / 10) (Nat.digitChar (n % 10) :: ds) hlt]
      simp

theorem repr_data (n : Nat) : (Nat.repr n).data = digitsAux n := by
  show (Nat.toDigits 10 n).asString.data = digitsAux n
  rw [Nat.toDigits, toDigitsCore_eq_digitsAux (n + 1) n [] (Nat.lt_succ_self n)]
  simp [List.asString]

theorem digitsAux_ne_nil (n : Nat) : digitsAux n ≠ [] := by
  rw [digitsAux]
  by_cases h : n < 10 <;> simp [h]

theorem digitChar_mem_digitChars : ∀ k, k < 10 → Nat.digitChar k ∈ digitChars := by decide

theorem digitsAux_all_digits (n : Nat) : ∀ c ∈ digitsAux n, c ∈ digitChars := by
  induction n using Nat.strong_induction_on with
  | _ n ih =>
    rw [digitsAux]
    by_cases h : n < 10
    · simp only [h, dif_pos]
      intro c hc
      rw [List.mem_singleton] at hc
      subst hc
      exact digitChar_mem_digitChars n h
    · simp only [h, dif_neg, not_false_iff]
      intro c hc
      rcases List.mem_append.mp hc with h1 | h2
      · exact ih (n / 10) (Nat.div_lt_self (by omega) (by omega)) c h1
      · rw [List.mem_singleton] at h2
        subst h2
        exact digitChar_mem_digitChars (n % 10) (Nat.mod_lt n (by omega))

theorem digitChar_toNat : ∀ k, k < 10 → (Nat.digitChar k).toNat = 48 + k := by decide

theorem valDigits_append_one (l : List Char) (c : Char) :
    valDigits (l ++ [c]) = 10 * valDigits l + (c.toNat - 48) := by
  simp [valDigits, List.foldl_append]

theorem valDigits_digitsAux (n : Nat) : valDigits (digitsAux n) = n := by
  induction n using Nat.strong_induction_on with
  | _ n ih =>
    rw [digitsAux]
    by_cases h : n < 10
    · simp only [h, dif_pos]
      simp [valDigits, digitChar_toNat n h]
    · simp only [h, dif_neg, not_false_iff]
      rw [valDigits_append_one, ih (n / 10) (Nat.div_lt_self (by omega) (by omega)),
        digitChar_toNat (n % 10) (Nat.mod_lt n (by omega))]
      omega

theorem repr_injective {m n : Nat} (h : Nat.repr m = Nat.repr n) : m = n := by
  have hd : digitsAux m = digitsAux n := by
    rw [← repr_data, ← repr_data, h]
  calc m = valDigits (digitsAux m) := (valDigits_digitsAux m).symm
    _ = valDigits (digitsAux n) := by rw [hd]
    _ = n := valDigits_digitsAux n

/-! ### Facts about minted identifiers -/

theorem genId_data (site clock : Nat) :
    (genId site clock).data = digitsAux site ++ digitsAux clock := by
  show (Nat.repr site ++ Nat.repr clock).data = _
  rw [String.data_append, repr_data, repr_data]

theorem genId_head (site clock : Nat) :
    ∃ d rest, (genId site clock).data = d :: rest ∧ d ∈ digitChars := by
  rw [genId_data]
  rcases hd : digitsAux site with _ | ⟨d, t⟩
  · exact absurd hd (digitsAux_ne_nil site)
  · refine ⟨d, t ++ digitsAux clock, by simp, ?_⟩
    exact digitsAux_all_digits site d (by rw [hd]; exact List.mem_cons_self d t)

theorem genId_inj_clock (site : Nat) {a b : Nat} (h : genId site a = genId site b) : a = b := by
  have hd : digitsAux a = digitsAux b := by
    have := congrArg String.data h
    rw [genId_data, genId_data] at this
    exact List.append_cancel_left this
  calc a = valDigits (digitsAux a) := (valDigits_digitsAux a).symm
    _ = valDigits (digitsAux b) := by rw [hd]
    _ = b := valDigits_digitsAux b

theorem digit_facts : ∀ d ∈ digitChars,
    (d < 'e') ∧ (d < 's') ∧ ¬('e' < d) ∧ ¬('s' < d) ∧ d ≠ 's' ∧ d ≠ 'e' ∧ d ≠ '-' := by decide

theorem strLt_genId_endId (site clock : Nat) : strLt (genId site clock) endId = true := by
  obtain ⟨d, rest, hdata, hmem⟩ := genId_head site clock
  show charsLt (genId site clock).data endId.data = true
  rw [hdata]
  show charsLt (d :: rest) ('e' :: ['n', 'd']) = true
  rw [charsLt]
  rw [if_pos (digit_facts d hmem).1]

theorem strLt_startId_genId (site clock : Nat) : strLt startId (genId site clock) = false := by
  obtain ⟨d, rest, hdata, hmem⟩ := genId_head site clock
  show charsLt startId.data (genId site clock).data = false
  rw [hdata]
  show charsLt ('s' :: ['t', 'a', 'r', 't']) (d :: rest) = false
  rw [charsLt]
  rw [if_neg (digit_facts d hmem).2.2.2.1, if_pos (digit_facts d hmem).2.1]

theorem strLt_genId_startId (site clock : Nat) : strLt (genId site clock) startId = true := by
  obtain ⟨d, rest, hdata, hmem⟩ := genId_head site clock
  show charsLt (genId site clock).data startId.data = true
  rw [hdata]
  show charsLt (d :: rest) ('s' :: ['t', 'a', 'r', 't']) = true
  rw [charsLt]
  rw [if_pos (digit_facts d hmem).2.1]

theorem genId_ne_of_head (site clock : Nat) (c : Char) (l : List Char)
    (hc : c ∉ digitChars) (s : String) (hs : s.data = c :: l) : genId site clock ≠ s := by
  intro h
  obtain ⟨d, rest, hdata, hmem⟩ := genId_head site clock
  have : (genId site clock).data = s.data := by rw [h]
  rw [hdata, hs] at this
  exact hc (List.head_eq_of_cons_eq this ▸ hmem)

theorem genId_ne_startId (site clock : Nat) : genId site clock ≠ startId :=
  genId_ne_of_head site clock 's' ['t', 'a', 'r', 't'] (by decide) startId rfl

theorem genId_ne_endId (site clock : Nat) : genId site clock ≠ endId :=
  genId_ne_of_head site clock 'e' ['n', 'd'] (by decide) endId rfl

theorem genId_ne_notFoundId (site clock : Nat) : genId site clock ≠ notFoundId :=
  genId_ne_of_head site clock '-' ['1'] (by decide) notFoundId rfl

theorem genId_ne_empty (site clock : Nat) : genId site clock ≠ "" := by
  intro h
  obtain ⟨d, rest, hdata, _⟩ := genId_head site clock
  have : (genId site clock).data = ("" : String).data := by rw [h]
  rw [hdata] at this
  simp at this

/-! ### Basic lemmas about Position, Find, modifyAt, Content -/

/-- The id projection of a document. -/
def idsOf (doc : Document) : List String := doc.Characters.map (fun c => c.ID)

theorem positionAux_of_not_mem {l : List Character} {cid : String}
    (h : cid ∉ l.map (fun c => c.ID)) : ∀ k, positionAux l cid k = -1 := by
  induction l with
  | nil => intro k; rfl
  | cons d t ih =>
    intro k
    simp only [List.map_cons, List.mem_cons] at h
    push_neg at h
    rw [positionAux, if_neg h.1]
    exact ih h.2 (k + 1)

theorem positionAux_of_get? {l : List Character}
    (hnodup : (l.map (fun c => c.ID)).Nodup) {j : Nat} {c : Character}
    (hj : l.get? j = some c) : ∀ k, positionAux l c.ID k = k + j + 1 := by
  induction l generalizing j with
  | nil => intro k; simp at hj
  | cons d t ih =>
    intro k
    rw [List.map_cons, List.nodup_cons] at hnodup
    match j, hj with
    | 0, hj =>
      have hc : d = c := by simpa using hj
      subst hc
      rw [positionAux, if_pos rfl]
      simp
    | j' + 1, hj =>
      have hjt : t.get? j' = some c := hj
      have hmem : c.ID ∈ t.map (fun x => x.ID) :=
        List.mem_map.mpr ⟨c, List.get?_mem hjt, rfl⟩
      have hne : ¬(c.ID = d.ID) := by
        intro he
        exact hnodup.1 (he ▸ hmem)
      rw [positionAux, if_neg hne, ih hnodup.2 hjt (k + 1)]
      push_cast
      ring

theorem Position_of_get? {doc : Document} {j : Nat} {c : Character}
    (hnodup : (idsOf doc).Nodup) (hj : doc.Characters.get? j = some c) :
    Position doc c.ID = (j : Int) + 1 := by
  have := positionAux_of_get? hnodup hj 0
  rw [Position, this]
  ring

theorem Position_of_not_mem {doc : Document} {cid : String}
    (h : cid ∉ idsOf doc) : Position doc cid = -1 :=
  positionAux_of_not_mem h 0

theorem findAux_of_get? {l : List Character} {cid : String}
    (hnodup : (l.map (fun c => c.ID)).Nodup) {j : Nat} {c : Character}
    (hj : l.get? j = some c) (hc : c.ID = cid) : findAux l cid = c := by
  induction l generalizing j with
  | nil => simp at hj
  | cons d t ih =>
    rw [List.map_cons, List.nodup_cons] at hnodup
    match j, hj with
    | 0, hj =>
      have hcd : d = c := by simpa using hj
      subst hcd
      rw [findAux, if_pos hc]
    | j' + 1, hj =>
      have hjt : t.get? j' = some c := hj
      have hmem : c.ID ∈ t.map (fun x => x.ID) :=
        List.mem_map.mpr ⟨c, List.get?_mem hjt, rfl⟩
      have hne : ¬(d.ID = cid) := by
        intro he
        have hdc : d.ID = c.ID := by rw [he, hc]
        exact hnodup.1 (hdc ▸ hmem)
      rw [findAux, if_neg hne]
      exact ih hnodup.2 hjt

theorem modifyAt_length (l : List Character) (k : Nat) (f : Character → Character) :
    (modifyAt l k f).length = l.length := by
  induction l generalizing k with
  | nil => rfl
  | cons c t ih =>
    match k with
    | 0 => rfl
    | k' + 1 => simp [modifyAt, ih k']

theorem modifyAt_map {α : Type} (g : Character → α) (f : Character → Character)
    (hf : ∀ c, g (f c) = g c) (l : List Character) (k : Nat) :
    (modifyAt l k f).map g = l.map g := by
  induction l generalizing k with
  | nil => rfl
  | cons c t ih =>
    match k with
    | 0 => simp [modifyAt, hf]
    | k' + 1 => simp [modifyAt, ih k']

theorem foldl_contentStep_modifyAt (f : Character → Character)
    (hf : ∀ c, (f c).Visible = c.Visible ∧ (f c).Value = c.Value) (l : List Character) :
    ∀ k a, (modifyAt l k f).foldl contentStep a = l.foldl contentStep a := by
  induction l with
  | nil => intro k a; rfl
  | cons c t ih =>
    intro k a
    match k with
    | 0 =>
      show (f c :: t).foldl contentStep a = _
      simp only [List.foldl_cons]
      have : contentStep a (f c) = contentStep a c := by
        rw [contentStep, contentStep, (hf c).1, (hf c).2]
      rw [this]
    | k' + 1 =>
      show (c :: modifyAt t k' f).foldl contentStep a = _
      simp only [List.foldl_cons]
      exact ih k' (contentStep a c)

theorem foldl_contentStep_extract (l : List Character) :
    ∀ a, l.foldl contentStep a = a ++ l.foldl contentStep "" := by
  induction l with
  | nil => intro a; simp [String.append_empty]
  | cons c t ih =>
    intro a
    simp only [List.foldl_cons]
    rw [ih (contentStep a c), ih (contentStep "" c)]
    rw [contentStep, contentStep]
    by_cases h : c.Visible
    · rw [if_pos h, if_pos h, String.empty_append, String.append_assoc]
    · rw [if_neg h, if_neg h, String.empty_append]

/-! ### The i-th visible character -/

/-- Index (into the full character list) of the visible character that
`ithVisibleAux` returns, when it finds one; proof-side companion of the loop. -/
def nthVisibleIdx : List Character → Int → Option Nat
  | [], _ => none
  | c :: rest, t =>
    if c.Visible then
      (if t = 0 then some 0 else (nthVisibleIdx rest (t - 1)).map (fun j => j + 1))
    else (nthVisibleIdx rest t).map (fun j => j + 1)

theorem ithVisibleAux_eq (l : List Character) (t : Int) :
    ithVisibleAux l t = match nthVisibleIdx l t with
      | none => defaultChar
      | some j => l.getD j defaultChar := by
  induction l generalizing t with
  | nil => rfl
  | cons c rest ih =>
    rw [ithVisibleAux, nthVisibleIdx]
    by_cases hv : c.Visible
    · rw [if_pos hv, if_pos hv]
      by_cases ht : t = 0
      · rw [if_pos ht, if_pos ht]
        rfl
      · rw [if_neg ht, if_neg ht, ih (t - 1)]
        cases nthVisibleIdx rest (t - 1) <;> simp [List.getD_cons_succ]
    · rw [if_neg hv, if_neg hv, ih t]
      cases nthVisibleIdx rest t <;> simp [List.getD_cons_succ]

theorem nthVisibleIdx_nonneg {l : List Character} {t : Int} {j : Nat}
    (h : nthVisibleIdx l t = some j) : 0 ≤ t := by
  induction l generalizing t j with
  | nil => simp [nthVisibleIdx] at h
  | cons c rest ih =>
    rw [nthVisibleIdx] at h
    by_cases hv : c.Visible
    · rw [if_pos hv] at h
      by_cases ht : t = 0
      · omega
      · rw [if_neg ht] at h
        rcases Option.map_eq_some'.mp h with ⟨j', hj', _⟩
        have := ih hj'
        omega
    · rw [if_neg hv] at h
      rcases Option.map_eq_some'.mp h with ⟨j', hj', _⟩
      exact ih hj'

theorem nthVisibleIdx_spec {l : List Character} {t : Int} {j : Nat}
    (h : nthVisibleIdx l t = some j) :
    ∃ c, l.get? j = some c ∧ c.Visible = true := by
  induction l generalizing t j with
  | nil => simp [nthVisibleIdx] at h
  | cons c rest ih =>
    rw [nthVisibleIdx] at h
    by_cases hv : c.Visible
    · rw [if_pos hv] at h
      by_cases ht : t = 0
      · rw [if_pos ht] at h
        have hj : 0 = j := by simpa using h
        subst hj
        exact ⟨c, rfl, hv⟩
      · rw [if_neg ht] at h
        rcases Option.map_eq_some'.mp h with ⟨j', hj', hjj⟩
        rcases ih hj' with ⟨d, hd, hdv⟩
        exact ⟨d, by rw [← hjj]; exact hd, hdv⟩
    · rw [if_neg hv] at h
      rcases Option.map_eq_some'.mp h with ⟨j', hj', hjj⟩
      rcases ih hj' with ⟨d, hd, hdv⟩
      exact ⟨d, by rw [← hjj]; exact hd, hdv⟩

theorem nthVisibleIdx_mono {l : List Character} {t : Int} {j j' : Nat}
    (h1 : nthVisibleIdx l t = some j) (h2 : nthVisibleIdx l (t + 1) = some j') : j < j' := by
  induction l generalizing t j j' with
  | nil => simp [nthVisibleIdx] at h1
  | cons c rest ih =>
    have ht0 : 0 ≤ t := nthVisibleIdx_nonneg h1
    rw [nthVisibleIdx] at h1 h2
    by_cases hv : c.Visible
    · rw [if_pos hv] at h1 h2
      by_cases ht : t = 0
      · have hj : 0 = j := by
          rw [if_pos ht] at h1
          simpa using h1
        have hne : ¬(t + 1 = 0) := by omega
        rw [if_neg hne] at h2
        rcases Option.map_eq_some'.mp h2 with ⟨a, _, haj⟩
        omega
      · have hne : ¬(t + 1 = 0) := by omega
        rw [if_neg ht] at h1
        rw [if_neg hne] at h2
        rcases Option.map_eq_some'.mp h1 with ⟨a, ha, haj⟩
        rcases Option.map_eq_some'.mp h2 with ⟨b, hb, hbj⟩
        have htt : t + 1 - 1 = t - 1 + 1 := by ring
        rw [htt] at hb
        have := ih ha hb
        omega
    · rw [if_neg hv] at h1 h2
      rcases Option.map_eq_some'.mp h1 with ⟨a, ha, haj⟩
      rcases Option.map_eq_some'.mp h2 with ⟨b, hb, hbj⟩
      have := ih ha hb
      omega

/-! ### The walk loop -/

theorem walkIdxFuel_eq (sub : List Character) (cid : String) :
    ∀ k f i, i + k = sub.length - 1 → k ≤ f →
      walkIdxFuel f sub cid i =
        i + (((sub.drop i).take k).takeWhile (fun c => strLt c.ID cid)).length := by
  intro k
  induction k with
  | zero =>
    intro f i hik _
    have hcond : ¬(i < sub.length - 1 ∧ strLt (sub.getD i defaultChar).ID cid) := by
      intro hc
      omega
    match f with
    | 0 => simp [walkIdxFuel]
    | f' + 1 => rw [walkIdxFuel, if_neg hcond]; simp
  | succ k ih =>
    intro f i hik hkf
    match f with
    | 0 => omega
    | f' + 1 =>
      have hilt : i < sub.length := by omega
      have hdrop : sub.drop i = sub.get ⟨i, hilt⟩ :: sub.drop (i + 1) :=
        List.drop_eq_get_cons hilt
      have hgetD : sub.getD i defaultChar = sub.get ⟨i, hilt⟩ := by
        rw [List.getD_eq_get?, List.get?_eq_get hilt]
        rfl
      rw [walkIdxFuel]
      by_cases hp : strLt (sub.get ⟨i, hilt⟩).ID cid
      · rw [if_pos ⟨by omega, by rw [hgetD]; exact hp⟩]
        rw [ih f' (i + 1) (by omega) (by omega)]
        rw [hdrop, List.take_succ_cons, List.takeWhile_cons, if_pos hp]
        simp
        omega
      · rw [if_neg (by
          intro hc
          rw [hgetD] at hc
          exact hp hc.2)]
        rw [hdrop, List.take_succ_cons, List.takeWhile_cons, if_neg hp]
        simp

theorem walkIdx_one_eq (sub : List Character) (cid : String) (hlen : 2 ≤ sub.length) :
    walkIdx sub cid 1 =
      1 + (((sub.drop 1).take (sub.length - 2)).takeWhile (fun c => strLt c.ID cid)).length := by
  rw [walkIdx]
  exact walkIdxFuel_eq sub cid (sub.length - 2) sub.length 1 (by omega) (by omega)

theorem takeWhile_length_le (p : Character → Bool) (l : List Character) :
    (l.takeWhile p).length ≤ l.length := by
  induction l with
  | nil => simp
  | cons c t ih =>
    rw [List.takeWhile_cons]
    by_cases h : p c
    · simp only [h, if_true, List.length_cons]
      omega
    · simp only [h]
      simp

theorem walkIdx_one_bounds (sub : List Character) (cid : String) (hlen : 2 ≤ sub.length) :
    1 ≤ walkIdx sub cid 1 ∧ walkIdx sub cid 1 ≤ sub.length - 1 := by
  rw [walkIdx_one_eq sub cid hlen]
  constructor
  · omega
  · have h1 : (((sub.drop 1).take (sub.length - 2)).takeWhile
        (fun c => strLt c.ID cid)).length ≤ ((sub.drop 1).take (sub.length - 2)).length :=
      takeWhile_length_le _ _
    have h2 : ((sub.drop 1).take (sub.length - 2)).length ≤ sub.length - 2 := by
      simp [List.length_take]
    omega

/-! ### Subseq under presence of both bounds -/

theorem Subseq_eq_slice {doc : Document} {prev next : Character} {ip jn : Nat}
    (hp : Position doc prev.ID = (ip : Int) + 1)
    (hn : Position doc next.ID = (jn : Int) + 1)
    (hij : ip < jn) (hjn : jn ≤ doc.Characters.length) :
    Subseq doc prev next = some ((doc.Characters.take jn).drop (ip + 1), none) := by
  rw [Subseq]
  simp only [hp, hn]
  have h1 : ¬((ip : Int) + 1 = -1 ∨ (jn : Int) + 1 = -1) := by omega
  rw [if_neg h1, if_neg (by omega : ¬((ip : Int) + 1 = (jn : Int) + 1))]
  have h2 : (jn : Int) + 1 - 1 = (jn : Int) := by ring
  rw [h2, goSlice]
  rw [if_pos (by constructor <;> [omega; constructor <;> [omega; simpa using hjn]])]
  have h3 : ((ip : Int) + 1).toNat = ip + 1 := by omega
  have h4 : ((jn : Int)).toNat = jn := by omega
  rw [h3, h4]
  rfl

theorem slice_length {l : List Character} {ip jn : Nat} (hij : ip < jn)
    (hjn : jn ≤ l.length) : ((l.take jn).drop (ip + 1)).length = jn - ip - 1 := by
  simp [List.length_drop, List.length_take]
  omega

theorem slice_get? {l : List Character} {ip jn t : Nat} (ht : ip + 1 + t < jn)
    (_hjn : jn ≤ l.length) : ((l.take jn).drop (ip + 1)).get? t = l.get? (ip + 1 + t) := by
  rw [List.get?_drop, List.get?_take (by omega)]

/-! ### Successful LocalInsert -/

/-- The character list produced by a successful `LocalInsert` at slot `p`. -/
def insertedChars (doc : Document) (char : Character) (p : Nat) : List Character :=
  modifyAt (modifyAt (doc.Characters.take p ++ char :: doc.Characters.drop p) (p - 1)
    (fun c => { c with IDNext := char.ID })) (p + 1) (fun c => { c with IDPrevious := char.ID })

theorem LocalInsert_ok {doc : Document} {char : Character} {p : Nat}
    (h0 : 0 < p) (hlen : p < doc.Characters.length) (hid : char.ID ≠ "") :
    LocalInsert doc char (p : Int) = (⟨insertedChars doc char p⟩, none) := by
  rw [LocalInsert]
  rw [if_neg (by rw [Length]; omega : ¬((p : Int) ≤ 0 ∨ Length doc ≤ (p : Int)))]
  rw [if_neg hid]
  have hq : ((p : Int)).toNat = p := rfl
  rw [hq]
  rfl

/-- Projection to the fields that identify a character and drive Content. -/
def idvisval (c : Character) : String × Bool × String := (c.ID, c.Visible, c.Value)

theorem idvisval_fields {c : Character} {a : String} {b : Bool} {v : String}
    (h : idvisval c = (a, b, v)) : c.ID = a ∧ c.Visible = b ∧ c.Value = v := by
  rw [idvisval] at h
  refine ⟨congrArg (fun x => x.1) h, congrArg (fun x => x.2.1) h, congrArg (fun x => x.2.2) h⟩

theorem insertedChars_map (doc : Document) (char : Character) (p : Nat) :
    (insertedChars doc char p).map idvisval =
      (doc.Characters.take p).map idvisval ++
        idvisval char :: (doc.Characters.drop p).map idvisval := by
  rw [insertedChars,
    modifyAt_map idvisval (fun c => { c with IDPrevious := char.ID }) (fun c => rfl),
    modifyAt_map idvisval (fun c => { c with IDNext := char.ID }) (fun c => rfl),
    List.map_append, List.map_cons]

theorem insertedChars_ids (doc : Document) (char : Character) (p : Nat) :
    (insertedChars doc char p).map (fun c => c.ID) =
      (doc.Characters.take p).map (fun c => c.ID) ++
        char.ID :: (doc.Characters.drop p).map (fun c => c.ID) := by
  rw [insertedChars,
    modifyAt_map (fun c => c.ID) (fun c => { c with IDPrevious := char.ID }) (fun c => rfl),
    modifyAt_map (fun c => c.ID) (fun c => { c with IDNext := char.ID }) (fun c => rfl),
    List.map_append, List.map_cons]

theorem insertedChars_length (doc : Document) (char : Character) (p : Nat)
    (hp : p ≤ doc.Characters.length) :
    (insertedChars doc char p).length = doc.Characters.length + 1 := by
  rw [insertedChars, modifyAt_length, modifyAt_length]
  simp [List.length_append, List.length_take, List.length_drop]
  omega

theorem Content_insertedChars (doc : Document) (char : Character) (p : Nat)
    (hvis : char.Visible = true) :
    Content ⟨insertedChars doc char p⟩ =
      Content ⟨doc.Characters.take p⟩ ++ char.Value ++ Content ⟨doc.Characters.drop p⟩ := by
  show (insertedChars doc char p).foldl contentStep "" = _
  rw [insertedChars,
    foldl_contentStep_modifyAt (fun c => { c with IDPrevious := char.ID }) (fun c => ⟨rfl, rfl⟩),
    foldl_contentStep_modifyAt (fun c => { c with IDNext := char.ID }) (fun c => ⟨rfl, rfl⟩),
    List.foldl_append, List.foldl_cons]
  have hstep : contentStep ((doc.Characters.take p).foldl contentStep "") char =
      (doc.Characters.take p).foldl contentStep "" ++ char.Value := by
    rw [contentStep, if_pos hvis]
  rw [hstep, foldl_contentStep_extract]
  rfl

/-! ### IntegrateInsert succeeds between two present, ordered neighbours -/

theorem integrateInsertFuel_succ (fuel : Nat) (doc : Document) (char charPrev charNext : Character) :
    integrateInsertFuel (fuel + 1) doc char charPrev charNext =
      match Subseq doc charPrev charNext with
      | none => none
      | some (subsequence, _) =>
        let position := Position doc charNext.ID - 1
        if subsequence.length = 0 then some (LocalInsert doc char position)
        else if subsequence.length = 1 then some (LocalInsert doc char (position - 1))
        else
          let i := walkIdx subsequence char.ID 1
          match subsequence.get? (i - 1), subsequence.get? i with
          | some a, some b => integrateInsertFuel fuel doc char a b
          | _, _ => none := rfl

theorem integrate_success {doc : Document} {char prev next : Character} {ip jn : Nat}
    (fuel : Nat) (hfuel : 2 ≤ fuel)
    (hnodup : (idsOf doc).Nodup)
    {cp : Character} (hcp : doc.Characters.get? ip = some cp) (hcpid : cp.ID = prev.ID)
    {cn : Character} (hcn : doc.Characters.get? jn = some cn) (hcnid : cn.ID = next.ID)
    (hij : ip < jn) (hid : char.ID ≠ "") :
    ∃ q, 0 < q ∧ q < doc.Characters.length ∧
      integrateInsertFuel fuel doc char prev next = some (⟨insertedChars doc char q⟩, none) := by
  obtain ⟨f, rfl⟩ : ∃ f, fuel = f + 1 + 1 := ⟨fuel - 2, by omega⟩
  have hjlen : jn < doc.Characters.length := by
    rcases List.get?_eq_some.mp hcn with ⟨h, _⟩
    exact h
  have hp : Position doc prev.ID = (ip : Int) + 1 := by
    rw [← hcpid]
    exact Position_of_get? hnodup hcp
  have hn : Position doc next.ID = (jn : Int) + 1 := by
    rw [← hcnid]
    exact Position_of_get? hnodup hcn
  have hsub : Subseq doc prev next =
      some ((doc.Characters.take jn).drop (ip + 1), none) :=
    Subseq_eq_slice hp hn hij (by omega)
  have hslen : ((doc.Characters.take jn).drop (ip + 1)).length = jn - ip - 1 :=
    slice_length hij (by omega)
  rw [integrateInsertFuel_succ, hsub]
  dsimp only
  rw [hn]
  by_cases hz : ((doc.Characters.take jn).drop (ip + 1)).length = 0
  · rw [if_pos hz]
    have hq : (jn : Int) + 1 - 1 = ((jn : Nat) : Int) := by ring
    rw [hq, LocalInsert_ok (by omega) hjlen hid]
    exact ⟨jn, by omega, hjlen, rfl⟩
  · rw [if_neg hz]
    by_cases ho : ((doc.Characters.take jn).drop (ip + 1)).length = 1
    · rw [if_pos ho]
      have hjn2 : jn = ip + 2 := by omega
      have hq : (jn : Int) + 1 - 1 - 1 = (((jn - 1 : Nat)) : Int) := by
        omega
      rw [hq, LocalInsert_ok (by omega) (by omega) hid]
      exact ⟨jn - 1, by omega, by omega, rfl⟩
    · rw [if_neg ho]
      have hslen2 : 2 ≤ ((doc.Characters.take jn).drop (ip + 1)).length := by omega
      obtain ⟨hw1, hw2⟩ := walkIdx_one_bounds ((doc.Characters.take jn).drop (ip + 1)) char.ID hslen2
      set w := walkIdx ((doc.Characters.take jn).drop (ip + 1)) char.ID 1 with hwdef
      have hga : ((doc.Characters.take jn).drop (ip + 1)).get? (w - 1) =
          doc.Characters.get? (ip + w) := by
        have := @slice_get? doc.Characters ip jn (w - 1) (by omega) (by omega)
        rw [this]
        congr 1
        omega
      have hgb : ((doc.Characters.take jn).drop (ip + 1)).get? w =
          doc.Characters.get? (ip + 1 + w) := slice_get? (by omega) (by omega)
      obtain ⟨a, ha⟩ : ∃ a, doc.Characters.get? (ip + w) = some a :=
        ⟨_, List.get?_eq_get (by omega)⟩
      obtain ⟨b, hb⟩ : ∃ b, doc.Characters.get? (ip + 1 + w) = some b :=
        ⟨_, List.get?_eq_get (by omega)⟩
      rw [hga, hgb, ha, hb]
      dsimp only
      have hpa : Position doc a.ID = ((ip + w : Nat) : Int) + 1 := Position_of_get? hnodup ha
      have hpb : Position doc b.ID = ((ip + 1 + w : Nat) : Int) + 1 := Position_of_get? hnodup hb
      have hsub2 : Subseq doc a b =
          some ((doc.Characters.take (ip + 1 + w)).drop (ip + w + 1), none) := by
        exact @Subseq_eq_slice doc a b (ip + w) (ip + 1 + w) hpa hpb (by omega) (by omega)
      have hslice2 : (doc.Characters.take (ip + 1 + w)).drop (ip + w + 1) = [] := by
        have hl := @slice_length doc.Characters (ip + w) (ip + 1 + w)
          (by omega) (by omega)
        rcases List.length_eq_zero.mp (by omega : ((doc.Characters.take (ip + 1 + w)).drop
          (ip + w + 1)).length = 0) with h
        exact h
      rw [integrateInsertFuel_succ, hsub2, hslice2]
      dsimp only
      have hnil : (([] : List Character)).length = 0 := rfl
      rw [if_pos hnil, hpb]
      have hq : ((ip + 1 + w : Nat) : Int) + 1 - 1 = (((ip + 1 + w : Nat)) : Int) := by ring
      rw [hq, LocalInsert_ok (by omega) (by omega) hid]
      exact ⟨ip + 1 + w, by omega, by omega, rfl⟩

/-! ### Well-formed documents and GenerateInsert -/

/-- A document as produced by the CRDT operations: bounded by the two
invisible sentinels and with pairwise distinct ids. -/
def WellFormed (doc : Document) : Prop :=
  ∃ s e, doc.Characters.get? 0 = some s ∧
    doc.Characters.get? (doc.Characters.length - 1) = some e ∧
    s.ID = startId ∧ s.Visible = false ∧ e.ID = endId ∧ e.Visible = false ∧
    2 ≤ doc.Characters.length ∧ (idsOf doc).Nodup

/-- The previous neighbour chosen by GenerateInsert (woot.go lines 210, 214-216). -/
def chosenPrev (doc : Document) (position : Int) : Character :=
  let c0 := IthVisible doc (position - 1)
  if c0.ID = notFoundId then Find doc startId else c0

/-- The next neighbour chosen by GenerateInsert (woot.go lines 211, 217-219). -/
def chosenNext (doc : Document) (position : Int) : Character :=
  let c0 := IthVisible doc position
  if c0.ID = notFoundId then Find doc endId else c0

theorem neighbors_of_wf (doc : Document) (hwf : WellFormed doc) (position : Int) :
    ∃ ip jn, ip < jn ∧
      doc.Characters.get? ip = some (chosenPrev doc position) ∧
      doc.Characters.get? jn = some (chosenNext doc position) := by
  obtain ⟨s, e, hs0, he, hsid, hsvis, heid, hevis, hlen2, hnodup⟩ := hwf
  have hprev : (∃ c0, chosenPrev doc position = c0 ∧ doc.Characters.get? 0 = some c0) ∨
      (∃ j c0, chosenPrev doc position = c0 ∧ doc.Characters.get? j = some c0 ∧
        c0.Visible = true ∧ nthVisibleIdx doc.Characters (position - 1 - 1) = some j) := by
    rw [chosenPrev]
    by_cases hpid : (IthVisible doc (position - 1)).ID = notFoundId
    · left
      refine ⟨s, ?_, hs0⟩
      simp only [hpid, if_pos]
      rw [Find, findAux_of_get? hnodup hs0 hsid]
    · right
      rw [IthVisible] at hpid ⊢
      rw [ithVisibleAux_eq] at hpid ⊢
      rcases hnv : nthVisibleIdx doc.Characters (position - 1 - 1) with _ | j
      · rw [hnv] at hpid
        exact absurd rfl hpid
      · rw [hnv] at hpid
        obtain ⟨c0, hc0, hc0v⟩ := nthVisibleIdx_spec hnv
        have hgd : doc.Characters.getD j defaultChar = c0 := by
          rw [List.getD_eq_get?, hc0]
          rfl
        dsimp only at hpid ⊢
        rw [hgd] at hpid ⊢
        refine ⟨j, c0, ?_, hc0, hc0v, rfl⟩
        rw [if_neg hpid]
  have hnext : (∃ c0, chosenNext doc position = c0 ∧
        doc.Characters.get? (doc.Characters.length - 1) = some c0) ∨
      (∃ j c0, chosenNext doc position = c0 ∧ doc.Characters.get? j = some c0 ∧
        c0.Visible = true ∧ nthVisibleIdx doc.Characters (position - 1) = some j) := by
    rw [chosenNext]
    by_cases hnid : (IthVisible doc position).ID = notFoundId
    · left
      refine ⟨e, ?_, he⟩
      simp only [hnid, if_pos]
      rw [Find, findAux_of_get? hnodup he heid]
    · right
      rw [IthVisible] at hnid ⊢
      rw [ithVisibleAux_eq] at hnid ⊢
      rcases hnv : nthVisibleIdx doc.Characters (position - 1) with _ | j
      · rw [hnv] at hnid
        exact absurd rfl hnid
      · rw [hnv] at hnid
        obtain ⟨c0, hc0, hc0v⟩ := nthVisibleIdx_spec hnv
        have hgd : doc.Characters.getD j defaultChar = c0 := by
          rw [List.getD_eq_get?, hc0]
          rfl
        dsimp only at hnid ⊢
        rw [hgd] at hnid ⊢
        refine ⟨j, c0, ?_, hc0, hc0v, rfl⟩
        rw [if_neg hnid]
  have visible_idx_bounds : ∀ j c0, doc.Characters.get? j = some c0 → c0.Visible = true →
      1 ≤ j ∧ j ≤ doc.Characters.length - 2 := by
    intro j c0 hj hv
    have hjlen : j < doc.Characters.length := (List.get?_eq_some.mp hj).1
    have hj0 : j ≠ 0 := by
      intro h0
      subst h0
      rw [hs0] at hj
      have : s = c0 := by simpa using hj
      subst this
      rw [hsvis] at hv
      exact Bool.false_ne_true hv
    have hjlast : j ≠ doc.Characters.length - 1 := by
      intro hl
      subst hl
      rw [he] at hj
      have : e = c0 := by simpa using hj
      subst this
      rw [hevis] at hv
      exact Bool.false_ne_true hv
    omega
  rcases hprev with ⟨c0, hcp, hget⟩ | ⟨j1, c0, hcp, hget, hv1, hnv1⟩ <;>
    rcases hnext with ⟨d0, hcn, hgetn⟩ | ⟨j2, d0, hcn, hgetn, hv2, hnv2⟩
  · exact ⟨0, doc.Characters.length - 1, by omega, by rw [hcp]; exact hget,
      by rw [hcn]; exact hgetn⟩
  · obtain ⟨hb1, _⟩ := visible_idx_bounds j2 d0 hgetn hv2
    exact ⟨0, j2, by omega, by rw [hcp]; exact hget, by rw [hcn]; exact hgetn⟩
  · obtain ⟨_, hb2⟩ := visible_idx_bounds j1 c0 hget hv1
    exact ⟨j1, doc.Characters.length - 1, by omega, by rw [hcp]; exact hget,
      by rw [hcn]; exact hgetn⟩
  · have hmono : j1 < j2 := by
      have harg : position - 1 - 1 + 1 = position - 1 := by ring
      rw [← harg] at hnv2
      exact nthVisibleIdx_mono hnv1 hnv2
    exact ⟨j1, j2, hmono, by rw [hcp]; exact hget, by rw [hcn]; exact hgetn⟩

theorem GenerateInsert_success (doc : Document) (site clock : Nat) (position : Int)
    (value : String) (hwf : WellFormed doc) :
    ∃ q, 0 < q ∧ q < doc.Characters.length ∧
      GenerateInsert doc site clock position value =
        (some (⟨insertedChars doc
          { ID := genId site (clock + 1), Visible := true, Value := value,
            IDPrevious := (chosenPrev doc position).ID,
            IDNext := (chosenNext doc position).ID } q⟩, none), clock + 1) := by
  have hgen : GenerateInsert doc site clock position value =
      (IntegrateInsert doc
        { ID := genId site (clock + 1), Visible := true, Value := value,
          IDPrevious := (chosenPrev doc position).ID,
          IDNext := (chosenNext doc position).ID }
        (chosenPrev doc position) (chosenNext doc position), clock + 1) := rfl
  obtain ⟨ip, jn, hij, hget, hgetn⟩ := neighbors_of_wf doc hwf position
  obtain ⟨_, _, _, _, _, _, _, _, _, hnodup⟩ := hwf
  obtain ⟨q, hq0, hqlen, heq⟩ :=
    @integrate_success doc
      { ID := genId site (clock + 1), Visible := true, Value := value,
        IDPrevious := (chosenPrev doc position).ID, IDNext := (chosenNext doc position).ID }
      (chosenPrev doc position) (chosenNext doc position) ip jn
      (doc.Characters.length + 2) (by omega) hnodup
      (chosenPrev doc position) hget rfl (chosenNext doc position) hgetn rfl hij
      (genId_ne_empty site (clock + 1))
  exact ⟨q, hq0, hqlen, by rw [hgen, IntegrateInsert, heq]⟩

theorem Insert_no_error (doc : Document) (site clock : Nat) (position : Int) (value : String)
    (hwf : WellFormed doc) :
    ∃ l r, Insert doc site clock position value = some ((l ++ value ++ r, none), clock + 1) := by
  obtain ⟨q, _, _, heq⟩ := GenerateInsert_success doc site clock position value hwf
  rw [Insert, heq]
  dsimp only
  refine ⟨Content ⟨doc.Characters.take q⟩, Content ⟨doc.Characters.drop q⟩, ?_⟩
  rw [Content_insertedChars _ _ _ rfl]

/-! ### Preservation of well-formedness and freshness of ids -/

theorem WellFormed_insert (doc : Document) (char : Character) (q : Nat)
    (hwf : WellFormed doc) (hq0 : 0 < q) (hqlen : q < doc.Characters.length)
    (hfresh : char.ID ∉ idsOf doc) : WellFormed ⟨insertedChars doc char q⟩ := by
  obtain ⟨s, e, hs0, he, hsid, hsvis, heid, hevis, hlen2, hnodup⟩ := hwf
  have hlen : (insertedChars doc char q).length = doc.Characters.length + 1 :=
    insertedChars_length doc char q (by omega)
  have hmap := insertedChars_map doc char q
  have htlen : ((doc.Characters.take q).map idvisval).length = q := by
    simp [List.length_take]
    omega
  have hhead : ((insertedChars doc char q).get? 0).map idvisval = some (idvisval s) := by
    rw [← List.get?_map, hmap]
    rw [List.get?_append (by omega)]
    rw [List.get?_map, List.get?_take (by omega), hs0]
    rfl
  have hlast : ((insertedChars doc char q).get? doc.Characters.length).map idvisval =
      some (idvisval e) := by
    rw [← List.get?_map, hmap]
    rw [List.get?_append_right (by omega)]
    rw [htlen]
    have hd : doc.Characters.length - q = (doc.Characters.length - q - 1) + 1 := by omega
    rw [hd]
    show ((doc.Characters.drop q).map idvisval).get? (doc.Characters.length - q - 1) = _
    rw [List.get?_map, List.get?_drop]
    have hidx : q + (doc.Characters.length - q - 1) = doc.Characters.length - 1 := by omega
    rw [hidx, he]
    rfl
  obtain ⟨s1, hs1, hs1v⟩ := Option.map_eq_some'.mp hhead
  obtain ⟨e1, he1, he1v⟩ := Option.map_eq_some'.mp hlast
  obtain ⟨hs1id, hs1vis, _⟩ := idvisval_fields (by rw [hs1v, idvisval])
  obtain ⟨he1id, he1vis, _⟩ := idvisval_fields (by rw [he1v, idvisval])
  refine ⟨s1, e1, hs1, ?_, by rw [hs1id, hsid], by rw [hs1vis, hsvis],
    by rw [he1id, heid], by rw [he1vis, hevis], by simp [Document.Characters] at hlen ⊢; omega, ?_⟩
  · show (insertedChars doc char q).get? ((insertedChars doc char q).length - 1) = some e1
    rw [hlen]
    have hi : doc.Characters.length + 1 - 1 = doc.Characters.length := by omega
    rw [hi]
    exact he1
  · show ((insertedChars doc char q).map (fun c => c.ID)).Nodup
    rw [insertedChars_ids]
    rw [List.nodup_middle]
    rw [List.nodup_cons]
    constructor
    · intro hmem
      rcases List.mem_append.mp hmem with h1 | h2
      · rcases List.mem_map.mp h1 with ⟨c, hc, hcid⟩
        exact hfresh (List.mem_map.mpr ⟨c, List.take_subset q doc.Characters hc, hcid⟩)
      · rcases List.mem_map.mp h2 with ⟨c, hc, hcid⟩
        exact hfresh (List.mem_map.mpr ⟨c, List.drop_subset q doc.Characters hc, hcid⟩)
    · rw [← List.map_append, List.take_append_drop]
      exact hnodup

theorem mem_ids_insert {doc : Document} {char : Character} {q : Nat} {x : String}
    (hx : x ∈ idsOf ⟨insertedChars doc char q⟩) : x = char.ID ∨ x ∈ idsOf doc := by
  have hx2 : x ∈ (insertedChars doc char q).map (fun c => c.ID) := hx
  rw [insertedChars_ids] at hx2
  rcases List.mem_append.mp hx2 with h1 | h2
  · rcases List.mem_map.mp h1 with ⟨c, hc, hcid⟩
    exact Or.inr (List.mem_map.mpr ⟨c, List.take_subset q doc.Characters hc, hcid⟩)
  · rcases List.mem_cons.mp h2 with h2a | h2b
    · exact Or.inl h2a
    · rcases List.mem_map.mp h2b with ⟨c, hc, hcid⟩
      exact Or.inr (List.mem_map.mpr ⟨c, List.drop_subset q doc.Characters hc, hcid⟩)

/-- No id that the site will mint after the current clock occurs in the document. -/
def FreshFrom (site clock : Nat) (doc : Document) : Prop :=
  ∀ k, clock < k → genId site k ∉ idsOf doc

theorem WellFormed_New : WellFormed New :=
  ⟨CharacterStart, CharacterEnd, rfl, rfl, rfl, rfl, rfl, rfl, by decide, by decide⟩

theorem FreshFrom_New (site : Nat) : FreshFrom site 0 New := by
  intro k _ hmem
  have : genId site k = startId ∨ genId site k = endId := by
    simpa [idsOf, New, CharacterStart, CharacterEnd] using hmem
  rcases this with h | h
  · exact genId_ne_startId site k h
  · exact genId_ne_endId site k h

theorem insertStep_preserves (site clock : Nat) (doc : Document) (position : Int) (value : String)
    (hwf : WellFormed doc) (hfresh : FreshFrom site clock doc) :
    ∃ d, insertStep site (doc, clock) (position, value) = some (d, clock + 1) ∧
      WellFormed d ∧ FreshFrom site (clock + 1) d := by
  obtain ⟨q, hq0, hqlen, heq⟩ := GenerateInsert_success doc site clock position value hwf
  refine ⟨_, by rw [insertStep, heq], ?_, ?_⟩
  · exact WellFormed_insert doc _ q hwf hq0 hqlen (hfresh (clock + 1) (by omega))
  · intro k hk hmem
    rcases mem_ids_insert hmem with h | h
    · have : k = clock + 1 := genId_inj_clock site h
      omega
    · exact hfresh k (by omega) h

theorem applyInserts_wf (site : Nat) (ops : List (Int × String)) :
    ∀ doc clock, WellFormed doc → FreshFrom site clock doc →
      ∃ d c, applyInserts site (doc, clock) ops = some (d, c) ∧ WellFormed d := by
  induction ops with
  | nil => intro doc clock hwf _; exact ⟨doc, clock, rfl, hwf⟩
  | cons op rest ih =>
    intro doc clock hwf hfresh
    obtain ⟨d, hstep, hwf1, hfresh1⟩ :=
      insertStep_preserves site clock doc op.1 op.2 hwf hfresh
    obtain ⟨d2, c2, happ, hwf2⟩ := ih d (clock + 1) hwf1 hfresh1
    refine ⟨d2, c2, ?_, hwf2⟩
    rw [applyInserts]
    have hop : op = (op.1, op.2) := rfl
    rw [← hop] at hstep
    rw [hstep]
    exact happ

/-! ### The claim's description of the integration algorithm, taken literally -/

/-- Number of elements of S skipped by the walk taken literally from the
claim's words: S is walked from left to right, starting at its FIRST element,
while the element's id compares less than the new character's id. -/
def specWalkSkipCount (sub : List Character) (cid : String) : Nat :=
  (sub.takeWhile (fun c => strLt c.ID cid)).length

/-- Integration exactly as the claim words it: compute the sub-sequence S
strictly between prev and next; if S is empty insert immediately before next;
if S has one element insert immediately before that element; otherwise walk S
from left to right while the element's id compares less than the new id and
recurse with the last skipped element as the new prev and the next element as
the new next.  Two boundary situations are underdetermined by those words and
are resolved in the only sensible way: when no element is skipped the prev
bound is unchanged, and when every element of S is skipped the next bound is
unchanged. -/
def specWordsIntegrateInsertFuel : Nat → Document → Character → Character → Character → Option (Document × Option Err)
  | 0, _, _, _, _ => none
  | fuel + 1, doc, char, charPrev, charNext =>
    match Subseq doc charPrev charNext with
    | none => none
    | some (s, _) =>
      match s with
      | [] => some (LocalInsert doc char (Position doc charNext.ID - 1))
      | [c] => some (LocalInsert doc char (Position doc c.ID - 1))
      | _ :: _ :: _ =>
        let k := specWalkSkipCount s char.ID
        let newPrev := if k = 0 then charPrev else s.getD (k - 1) defaultChar
        let newNext := if k = s.length then charNext else s.getD k defaultChar
        specWordsIntegrateInsertFuel fuel doc char newPrev newNext

/-- The claim's algorithm, taken literally, at the same generous fuel as the
code. -/
def SpecWordsIntegrateInsert (doc : Document) (char charPrev charNext : Character) : Option (Document × Option Err) :=
  specWordsIntegrateInsertFuel (doc.Characters.length + 2) doc char charPrev charNext

/-! ### The walk the code actually performs (the amended description) -/

/-- Number of elements skipped by the walk the code actually performs: the
first element of S is skipped unconditionally and the last element is never
compared; starting at the SECOND element, the walk advances while the
element's id compares less than the new id. -/
def amendedWalkCount (sub : List Character) (cid : String) : Nat :=
  (((sub.drop 1).take (sub.length - 2)).takeWhile (fun c => strLt c.ID cid)).length

/-- The amended description of `integrate_insert`: as the claim states it for
an empty or one-element sub-sequence, but with the code's actual walk
(`amendedWalkCount`) in the recursive case: the walk starts at the second
element of S and stops before the last, and the procedure recurses with the
element before the stopping point as the new prev and the stopping element as
the new next. -/
def amendedIntegrateInsertFuel : Nat → Document → Character → Character → Character → Option (Document × Option Err)
  | 0, _, _, _, _ => none
  | fuel + 1, doc, char, charPrev, charNext =>
    match Subseq doc charPrev charNext with
    | none => none
    | some (s, _) =>
      match s with
      | [] => some (LocalInsert doc char (Position doc charNext.ID - 1))
      | [c] => some (LocalInsert doc char (Position doc c.ID - 1))
      | _ :: _ :: _ =>
        let i := 1 + amendedWalkCount s char.ID
        match s.get? (i - 1), s.get? i with
        | some a, some b => amendedIntegrateInsertFuel fuel doc char a b
        | _, _ => none

/-- The amended integration algorithm at the same generous fuel as the code. -/
def AmendedIntegrateInsert (doc : Document) (char charPrev charNext : Character) : Option (Document × Option Err) :=
  amendedIntegrateInsertFuel (doc.Characters.length + 2) doc char charPrev charNext

theorem amendedIntegrateInsertFuel_succ (fuel : Nat) (doc : Document) (char charPrev charNext : Character) :
    amendedIntegrateInsertFuel (fuel + 1) doc char charPrev charNext =
      match Subseq doc charPrev charNext with
      | none => none
      | some (s, _) =>
        match s with
        | [] => some (LocalInsert doc char (Position doc charNext.ID - 1))
        | [c] => some (LocalInsert doc char (Position doc c.ID - 1))
        | _ :: _ :: _ =>
          let i := 1 + amendedWalkCount s char.ID
          match s.get? (i - 1), s.get? i with
          | some a, some b => amendedIntegrateInsertFuel fuel doc char a b
          | _, _ => none := rfl

theorem Subseq_cases {doc : Document} {prev next : Character} {ip jn : Nat}
    {cp cn : Character} (hnodup : (idsOf doc).Nodup)
    (hcp : doc.Characters.get? ip = some cp) (hcpid : cp.ID = prev.ID)
    (hcn : doc.Characters.get? jn = some cn) (hcnid : cn.ID = next.ID) :
    (ip = jn ∧ Subseq doc prev next = some ([], none)) ∨
    (ip < jn ∧ Subseq doc prev next =
      some ((doc.Characters.take jn).drop (ip + 1), none)) ∨
    (jn < ip ∧ Subseq doc prev next = none) := by
  have hjlen : jn < doc.Characters.length := (List.get?_eq_some.mp hcn).1
  have hp : Position doc prev.ID = (ip : Int) + 1 := by
    rw [← hcpid]; exact Position_of_get? hnodup hcp
  have hn : Position doc next.ID = (jn : Int) + 1 := by
    rw [← hcnid]; exact Position_of_get? hnodup hcn
  rcases Nat.lt_trichotomy ip jn with h | h | h
  · exact Or.inr (Or.inl ⟨h, Subseq_eq_slice hp hn h (by omega)⟩)
  · refine Or.inl ⟨h, ?_⟩
    rw [Subseq]
    simp only [hp, hn]
    rw [if_neg (by omega : ¬((ip : Int) + 1 = -1 ∨ (jn : Int) + 1 = -1))]
    rw [if_pos (by omega : (ip : Int) + 1 = (jn : Int) + 1)]
  · refine Or.inr (Or.inr ⟨h, ?_⟩)
    rw [Subseq]
    simp only [hp, hn]
    rw [if_neg (by omega : ¬((ip : Int) + 1 = -1 ∨ (jn : Int) + 1 = -1))]
    rw [if_neg (by omega : ¬((ip : Int) + 1 = (jn : Int) + 1))]
    rw [goSlice, if_neg (by omega)]
    rfl

theorem mem_of_mem_slice {l : List Character} {ip jn : Nat} {c : Character}
    (hc : c ∈ (l.take jn).drop (ip + 1)) : c ∈ l :=
  List.take_subset jn l (List.drop_subset (ip + 1) (l.take jn) hc)

theorem integrateInsertFuel_eq_amended (fuel : Nat) :
    ∀ (doc : Document) (char prev next : Character),
      (idsOf doc).Nodup → prev.ID ∈ idsOf doc → next.ID ∈ idsOf doc →
      integrateInsertFuel fuel doc char prev next =
        amendedIntegrateInsertFuel fuel doc char prev next := by
  induction fuel with
  | zero => intro doc char prev next _ _ _; rfl
  | succ f ih =>
    intro doc char prev next hnodup hpmem hnmem
    obtain ⟨cp, hcpmem, hcpid⟩ := List.mem_map.mp hpmem
    obtain ⟨cn, hcnmem, hcnid⟩ := List.mem_map.mp hnmem
    obtain ⟨ip, hcp⟩ := List.mem_iff_get?.mp hcpmem
    obtain ⟨jn, hcn⟩ := List.mem_iff_get?.mp hcnmem
    have hjlen : jn < doc.Characters.length := (List.get?_eq_some.mp hcn).1
    rw [integrateInsertFuel_succ, amendedIntegrateInsertFuel_succ]
    rcases Subseq_cases hnodup hcp hcpid hcn hcnid with ⟨hij, hsub⟩ | ⟨hij, hsub⟩ | ⟨hij, hsub⟩
    · rw [hsub]
      rfl
    · rw [hsub]
      dsimp only
      have hslen : ((doc.Characters.take jn).drop (ip + 1)).length = jn - ip - 1 :=
        slice_length hij (by omega)
      rcases hS : (doc.Characters.take jn).drop (ip + 1) with _ | ⟨x, _ | ⟨y, rest⟩⟩
      · rfl
      · have h1 : ¬([x].length = 0) := by simp
        have h2 : [x].length = 1 := rfl
        rw [if_neg h1, if_pos h2]
        dsimp only
        have hjn2 : jn = ip + 2 := by
          rw [hS] at hslen
          simp at hslen
          omega
        have hx : doc.Characters.get? (ip + 1) = some x := by
          have hsg := @slice_get? doc.Characters ip jn 0 (by omega) (by omega)
          rw [hS] at hsg
          simpa using hsg.symm
        have hpx : Position doc x.ID = ((ip + 1 : Nat) : Int) + 1 :=
          Position_of_get? hnodup hx
        have hpn : Position doc next.ID = (jn : Int) + 1 := by
          rw [← hcnid]; exact Position_of_get? hnodup hcn
        rw [hpx, hpn]
        congr 2
        push_cast
        omega
      · have hlen2 : 2 ≤ ((doc.Characters.take jn).drop (ip + 1)).length := by
          rw [hS]
          simp
        have h1 : ¬((x :: y :: rest).length = 0) := by simp
        have h2 : ¬((x :: y :: rest).length = 1) := by simp
        rw [if_neg h1, if_neg h2]
        dsimp only
        rw [← hS]
        have hwalk : walkIdx ((doc.Characters.take jn).drop (ip + 1)) char.ID 1 =
            1 + amendedWalkCount ((doc.Characters.take jn).drop (ip + 1)) char.ID := by
          rw [walkIdx_one_eq _ char.ID hlen2]
          rfl
        rw [hwalk]
        rcases hga : ((doc.Characters.take jn).drop (ip + 1)).get?
            (1 + amendedWalkCount ((doc.Characters.take jn).drop (ip + 1)) char.ID - 1) with _ | a <;>
          rcases hgb : ((doc.Characters.take jn).drop (ip + 1)).get?
            (1 + amendedWalkCount ((doc.Characters.take jn).drop (ip + 1)) char.ID) with _ | b
        · rfl
        · rfl
        · rfl
        · have hamem : a.ID ∈ idsOf doc :=
            List.mem_map.mpr ⟨a, mem_of_mem_slice (List.get?_mem hga), rfl⟩
          have hbmem : b.ID ∈ idsOf doc :=
            List.mem_map.mpr ⟨b, mem_of_mem_slice (List.get?_mem hgb), rfl⟩
          exact ih doc char a b hnodup hamem hbmem
    · rw [hsub]

/-! ### Delete outside the visible range -/

theorem nthVisibleIdx_none_of_out (l : List Character) :
    ∀ t : Int, (t < 0 ∨ ((l.filter (fun c => c.Visible)).length : Int) ≤ t) →
      nthVisibleIdx l t = none := by
  induction l with
  | nil => intro t _; rfl
  | cons c rest ih =>
    intro t ht
    rw [nthVisibleIdx]
    by_cases hv : c.Visible
    · rw [if_pos hv]
      have hflen : (c :: rest).filter (fun x => x.Visible) =
          c :: rest.filter (fun x => x.Visible) := by
        rw [List.filter_cons, if_pos (by simpa using hv)]
      rw [hflen] at ht
      have ht0 : ¬(t = 0) := by
        rcases ht with h | h
        · omega
        · simp at h
          omega
      rw [if_neg ht0]
      have harg : t - 1 < 0 ∨ ((rest.filter (fun c => c.Visible)).length : Int) ≤ t - 1 := by
        rcases ht with h | h
        · left
          omega
        · right
          rw [List.length_cons] at h
          push_cast at h ⊢
          omega
      rw [ih (t - 1) harg]
      rfl
    · rw [if_neg hv]
      have hflen : (c :: rest).filter (fun x => x.Visible) =
          rest.filter (fun x => x.Visible) := by
        rw [List.filter_cons, if_neg (by simpa using hv)]
      rw [hflen] at ht
      rw [ih t ht]
      rfl

theorem IthVisible_default_of_out (doc : Document) (position : Int)
    (hpos : position ≤ 0 ∨ (visibleLength doc : Int) < position) :
    IthVisible doc position = defaultChar := by
  have harg : position - 1 < 0 ∨
      ((doc.Characters.filter (fun c => c.Visible)).length : Int) ≤ position - 1 := by
    rcases hpos with h | h
    · left
      omega
    · right
      simp only [visibleLength] at h
      omega
  rw [IthVisible, ithVisibleAux_eq, nthVisibleIdx_none_of_out doc.Characters (position - 1) harg]

/-! ### Server: broadcastAllExcept with eviction (server/main.go) -/

/-- A connected client as the broadcast loop sees it: its uuid-like key, its
username, and whether a write on its connection fails. -/
structure SrvClient where
  id : Nat
  username : String
  writeFails : Bool
deriving DecidableEq, Repr

/-- Removal of a client from the table (server/main.go lines 295-300, 353-371):
`delete(c.list, id)` keyed by the client id. -/
def deleteClient (table : List SrvClient) (cid : Nat) : List SrvClient :=
  table.filter (fun c => c.id != cid)

/-- broadcastAllExcept (server/main.go lines 315-325): iterate the snapshot of
the client table; skip the origin; on a send error delete that client from the
live table and continue with the next client.  Returns the live table after
the loop and the ids that received the message, in order. -/
def broadcastAllExceptModel : List SrvClient → List SrvClient → Nat → List SrvClient × List Nat
  | [], live, _ => (live, [])
  | c :: rest, live, except =>
    if c.id = except then broadcastAllExceptModel rest live except
    else if c.writeFails then broadcastAllExceptModel rest (deleteClient live c.id) except
    else
      let r := broadcastAllExceptModel rest live except
      (r.1, c.id :: r.2)

/-- The users message text assembled by sendUsernames (server/main.go lines 398-405). -/
def usersText (table : List SrvClient) : String :=
  table.foldl (fun acc c => acc ++ c.username ++ ",") ""

theorem bam_live_subset : ∀ (snap live : List SrvClient) (except : Nat),
    ∀ d ∈ (broadcastAllExceptModel snap live except).1, d ∈ live := by
  intro snap
  induction snap with
  | nil => intro live except d hd; exact hd
  | cons c rest ih =>
    intro live except d hd
    rw [broadcastAllExceptModel] at hd
    by_cases h1 : c.id = except
    · rw [if_pos h1] at hd
      exact ih live except d hd
    · rw [if_neg h1] at hd
      by_cases h2 : c.writeFails
      · rw [if_pos h2] at hd
        have := ih (deleteClient live c.id) except d hd
        exact List.mem_of_mem_filter this
      · rw [if_neg h2] at hd
        exact ih live except d hd

theorem bam_removed : ∀ (snap live : List SrvClient) (except : Nat) (c : SrvClient),
    c ∈ snap → c.writeFails = true → c.id ≠ except →
    ∀ d ∈ (broadcastAllExceptModel snap live except).1, d.id ≠ c.id := by
  intro snap
  induction snap with
  | nil => intro live except c hc; simp at hc
  | cons x rest ih =>
    intro live except c hc hcf hce d hd
    rw [broadcastAllExceptModel] at hd
    rcases List.mem_cons.mp hc with hcx | hcrest
    · subst hcx
      rw [if_neg hce, if_pos hcf] at hd
      have hdel : d ∈ deleteClient live c.id := bam_live_subset rest _ except d hd
      have := (List.mem_filter.mp hdel).2
      simpa using this
    · by_cases h1 : x.id = except
      · rw [if_pos h1] at hd
        exact ih live except c hcrest hcf hce d hd
      · rw [if_neg h1] at hd
        by_cases h2 : x.writeFails
        · rw [if_pos h2] at hd
          exact ih (deleteClient live x.id) except c hcrest hcf hce d hd
        · rw [if_neg h2] at hd
          exact ih live except c hcrest hcf hce d hd

theorem bam_delivers : ∀ (snap live : List SrvClient) (except : Nat) (c : SrvClient),
    c ∈ snap → c.id ≠ except → c.writeFails = false →
    c.id ∈ (broadcastAllExceptModel snap live except).2 := by
  intro snap
  induction snap with
  | nil => intro live except c hc; simp at hc
  | cons x rest ih =>
    intro live except c hc hce hcf
    rw [broadcastAllExceptModel]
    rcases List.mem_cons.mp hc with hcx | hcrest
    · subst hcx
      rw [if_neg hce, if_neg (by rw [hcf]; exact Bool.false_ne_true)]
      exact List.mem_cons_self _ _
    · by_cases h1 : x.id = except
      · rw [if_pos h1]
        exact ih live except c hcrest hce hcf
      · rw [if_neg h1]
        by_cases h2 : x.writeFails
        · rw [if_pos h2]
          exact ih (deleteClient live x.id) except c hcrest hce hcf
        · rw [if_neg h2]
          exact List.mem_cons_of_mem _ (ih live except c hcrest hce hcf)

/-! ### Claim theorems -/

/-- C1: commutativity of integration fails on the code.  Two concurrent
IntegrateInsert operations with both prev and next ("start"/"end") present,
applied to the same starting document in the two orders, yield the visible
strings "ba" and "ab" respectively: the one-element-subsequence branch of
IntegrateInsert (woot.go line 193) inserts before the existing element
without comparing ids, so the outcome depends on arrival order, contradicting
the claimed (and WOOT-paper-required) commutativity. -/
theorem c1_integrate_insert_order_dependent :
    (IntegrateInsert New
        { ID := "11", Visible := true, Value := "a", IDPrevious := "start", IDNext := "end" }
        CharacterStart CharacterEnd).bind (fun r =>
      (IntegrateInsert r.1
        { ID := "12", Visible := true, Value := "b", IDPrevious := "start", IDNext := "end" }
        CharacterStart CharacterEnd).map (fun r2 => Content r2.1)) = some ("ba") ∧
    (IntegrateInsert New
        { ID := "12", Visible := true, Value := "b", IDPrevious := "start", IDNext := "end" }
        CharacterStart CharacterEnd).bind (fun r =>
      (IntegrateInsert r.1
        { ID := "11", Visible := true, Value := "a", IDPrevious := "start", IDNext := "end" }
        CharacterStart CharacterEnd).map (fun r2 => Content r2.1)) = some ("ab") ∧
    ("ba" : String) ≠ "ab" := by decide

/-- C2 counterexample: IntegrateInsert does not follow the claimed walk.  On
the document [start, "21", "31", end] (distinct ids, both bounds present),
integrating a character with id "12" between the sentinels: the claimed
left-to-right walk compares "21" first, finds it not less than "12", skips
nothing, and places the new character BEFORE "21" (visible string "vxy");
the code starts its walk at the second element without ever comparing "21"
and places the new character AFTER "21" (visible string "xvy"). -/
theorem c2_counterexample :
    (idsOf ⟨[CharacterStart,
      { ID := "21", Visible := true, Value := "x", IDPrevious := "start", IDNext := "31" },
      { ID := "31", Visible := true, Value := "y", IDPrevious := "21", IDNext := "end" },
      CharacterEnd]⟩).Nodup ∧
    strLt (("21") : String) ("12") = false ∧
    (IntegrateInsert ⟨[CharacterStart,
      { ID := "21", Visible := true, Value := "x", IDPrevious := "start", IDNext := "31" },
      { ID := "31", Visible := true, Value := "y", IDPrevious := "21", IDNext := "end" },
      CharacterEnd]⟩
      { ID := "12", Visible := true, Value := "v", IDPrevious := "start", IDNext := "end" }
      CharacterStart CharacterEnd).map (fun r => Content r.1) = some ("xvy") ∧
    (SpecWordsIntegrateInsert ⟨[CharacterStart,
      { ID := "21", Visible := true, Value := "x", IDPrevious := "start", IDNext := "31" },
      { ID := "31", Visible := true, Value := "y", IDPrevious := "21", IDNext := "end" },
      CharacterEnd]⟩
      { ID := "12", Visible := true, Value := "v", IDPrevious := "start", IDNext := "end" }
      CharacterStart CharacterEnd).map (fun r => Content r.1) = some ("vxy") ∧
    IntegrateInsert ⟨[CharacterStart,
      { ID := "21", Visible := true, Value := "x", IDPrevious := "start", IDNext := "31" },
      { ID := "31", Visible := true, Value := "y", IDPrevious := "21", IDNext := "end" },
      CharacterEnd]⟩
      { ID := "12", Visible := true, Value := "v", IDPrevious := "start", IDNext := "end" }
      CharacterStart CharacterEnd ≠
    SpecWordsIntegrateInsert ⟨[CharacterStart,
      { ID := "21", Visible := true, Value := "x", IDPrevious := "start", IDNext := "31" },
      { ID := "31", Visible := true, Value := "y", IDPrevious := "21", IDNext := "end" },
      CharacterEnd]⟩
      { ID := "12", Visible := true, Value := "v", IDPrevious := "start", IDNext := "end" }
      CharacterStart CharacterEnd := by decide

/-- C2 amended: on documents with pairwise distinct ids and both bounds
present, IntegrateInsert follows the claimed algorithm for an empty or
one-element sub-sequence, but in the recursive case its walk skips the first
element of S unconditionally and never compares the last element: starting at
the second element it advances while the element's id compares less than the
new id, then recurses with the element before the stopping point as the new
prev and the stopping element as the new next. -/
theorem c2_amended_integrate_insert (doc : Document) (char prev next : Character)
    (hnodup : (idsOf doc).Nodup) (hp : prev.ID ∈ idsOf doc) (hn : next.ID ∈ idsOf doc) :
    IntegrateInsert doc char prev next = AmendedIntegrateInsert doc char prev next :=
  integrateInsertFuel_eq_amended (doc.Characters.length + 2) doc char prev next hnodup hp hn

/-- Witness for the amended C2 on a document whose sub-sequence between the
bounds has two elements, so the recursive walk branch is exercised. -/
theorem c2_amended_witness :
    (idsOf ⟨[CharacterStart,
      { ID := "12", Visible := true, Value := "x", IDPrevious := "start", IDNext := "14" },
      { ID := "14", Visible := true, Value := "y", IDPrevious := "12", IDNext := "end" },
      CharacterEnd]⟩).Nodup ∧
    CharacterStart.ID ∈ idsOf ⟨[CharacterStart,
      { ID := "12", Visible := true, Value := "x", IDPrevious := "start", IDNext := "14" },
      { ID := "14", Visible := true, Value := "y", IDPrevious := "12", IDNext := "end" },
      CharacterEnd]⟩ ∧
    CharacterEnd.ID ∈ idsOf ⟨[CharacterStart,
      { ID := "12", Visible := true, Value := "x", IDPrevious := "start", IDNext := "14" },
      { ID := "14", Visible := true, Value := "y", IDPrevious := "12", IDNext := "end" },
      CharacterEnd]⟩ ∧
    IntegrateInsert ⟨[CharacterStart,
      { ID := "12", Visible := true, Value := "x", IDPrevious := "start", IDNext := "14" },
      { ID := "14", Visible := true, Value := "y", IDPrevious := "12", IDNext := "end" },
      CharacterEnd]⟩
      { ID := "13", Visible := true, Value := "v", IDPrevious := "start", IDNext := "end" }
      CharacterStart CharacterEnd =
    AmendedIntegrateInsert ⟨[CharacterStart,
      { ID := "12", Visible := true, Value := "x", IDPrevious := "start", IDNext := "14" },
      { ID := "14", Visible := true, Value := "y", IDPrevious := "12", IDNext := "end" },
      CharacterEnd]⟩
      { ID := "13", Visible := true, Value := "v", IDPrevious := "start", IDNext := "end" }
      CharacterStart CharacterEnd :=
  ⟨by decide, by decide, by decide,
    c2_amended_integrate_insert ⟨[CharacterStart,
      { ID := "12", Visible := true, Value := "x", IDPrevious := "start", IDNext := "14" },
      { ID := "14", Visible := true, Value := "y", IDPrevious := "12", IDNext := "end" },
      CharacterEnd]⟩
      { ID := "13", Visible := true, Value := "v", IDPrevious := "start", IDNext := "end" }
      CharacterStart CharacterEnd (by decide) (by decide) (by decide)⟩

/-- C3 counterexample: the id "11", minted by GenerateInsert at site 1 and
clock 1, refutes the claimed ordering: "start" is NOT strictly less than it
under the lexicographic comparison used during integration (in fact "11"
compares strictly below "start"). -/
theorem c3_counterexample :
    genId 1 1 = "11" ∧ strLt startId (genId 1 1) = false ∧
    strLt (genId 1 1) startId = true := by decide

/-- C3 amended: under the lexicographic string comparison used during
integration, every id minted by GenerateInsert is strictly less than the
sentinel id "end" AND strictly less than the sentinel id "start"; the
sentinel "start" is not a minimum. -/
theorem c3_amended_sentinel_order (site clock : Nat) :
    strLt (genId site clock) endId = true ∧
    strLt (genId site clock) startId = true ∧
    strLt startId (genId site clock) = false :=
  ⟨strLt_genId_endId site clock, strLt_genId_startId site clock,
    strLt_startId_genId site clock⟩

/-- C4: id minting is not injective on (site id, local clock) pairs: the
distinct pairs (1, 23) and (12, 3) both mint the id "123".  This contradicts
the code's own documentation that ids uniquely identify characters
(woot.go lines 24-28). -/
theorem c4_id_collision :
    genId 1 23 = "123" ∧ genId 12 3 = "123" ∧ ((1, 23) : Nat × Nat) ≠ (12, 3) := by decide

/-- C5 counterexample: the claim says Insert fails with PositionOutOfBounds
exactly when position ≤ 0 or position > visible length + 1; but on the fresh
document, whose visible length is 0, Insert at position 0 succeeds (the
neighbours fall back to the sentinels). -/
theorem c5_counterexample :
    visibleLength New = 0 ∧ Insert New 1 0 0 ("x") = some (("x", none), 1) := by decide

/-- C5 amended: at the originating replica, on a well-formed document, Insert
never fails: for EVERY integer position (in range or not) it succeeds,
increments the clock, and returns the full visible string with value spliced
in. -/
theorem c5_amended_insert_succeeds (doc : Document) (site clock : Nat) (position : Int)
    (value : String) (hwf : WellFormed doc) :
    ∃ l r, Insert doc site clock position value = some ((l ++ value ++ r, none), clock + 1) :=
  Insert_no_error doc site clock position value hwf

/-- Witness for C5 on the fresh document at position 1. -/
theorem c5_witness :
    WellFormed New ∧
    ∃ l r, Insert New 1 0 1 ("x") = some ((l ++ ("x") ++ r, none), 1) :=
  ⟨WellFormed_New, c5_amended_insert_succeeds New 1 0 1 ("x") WellFormed_New⟩

/-- C6 counterexample: the claim quantifies over every document, but on a
document containing a (visible) character whose ID is "-1", Delete at the
out-of-range position 0 is NOT a no-op: the failure sentinel returned by
IthVisible collides with that id, and the character is tombstoned. -/
theorem c6_counterexample :
    visibleLength ⟨[{ ID := "-1", Visible := true, Value := "x", IDPrevious := "", IDNext := "" }]⟩ = 1 ∧
    GenerateDelete ⟨[{ ID := "-1", Visible := true, Value := "x", IDPrevious := "", IDNext := "" }]⟩ 0 =
      ⟨[{ ID := "-1", Visible := false, Value := "x", IDPrevious := "", IDNext := "" }]⟩ ∧
    GenerateDelete ⟨[{ ID := "-1", Visible := true, Value := "x", IDPrevious := "", IDNext := "" }]⟩ 0 ≠
      ⟨[{ ID := "-1", Visible := true, Value := "x", IDPrevious := "", IDNext := "" }]⟩ ∧
    Delete ⟨[{ ID := "-1", Visible := true, Value := "x", IDPrevious := "", IDNext := "" }]⟩ 0 ≠
      Content ⟨[{ ID := "-1", Visible := true, Value := "x", IDPrevious := "", IDNext := "" }]⟩ := by
  decide

/-- C6 amended: for every document in which no character carries the failure
id "-1" (true of all documents the system builds) and every position outside
[1, visible length], Delete is a no-op: the document is unchanged and the
returned text is the unchanged Content. -/
theorem c6_amended_delete_noop (doc : Document) (position : Int)
    (hno : notFoundId ∉ idsOf doc)
    (hpos : position ≤ 0 ∨ (visibleLength doc : Int) < position) :
    GenerateDelete doc position = doc ∧ Delete doc position = Content doc := by
  have hiv : IthVisible doc position = defaultChar :=
    IthVisible_default_of_out doc position hpos
  have hgd : GenerateDelete doc position = doc := by
    rw [GenerateDelete, hiv]
    simp only [IntegrateDelete]
    have hdid : defaultChar.ID = notFoundId := rfl
    rw [hdid, Position_of_not_mem hno]
    simp
  exact ⟨hgd, by rw [Delete, hgd]⟩

/-- Witness for C6 on the fresh document at position 5. -/
theorem c6_witness :
    (notFoundId ∉ idsOf New) ∧ ((5 : Int) ≤ 0 ∨ (visibleLength New : Int) < 5) ∧
    GenerateDelete New 5 = New ∧ Delete New 5 = Content New :=
  ⟨by decide, by decide,
    (c6_amended_delete_noop New 5 (by decide) (by decide)).1,
    (c6_amended_delete_noop New 5 (by decide) (by decide)).2⟩

/-- C7: every finite sequence of local inserts through the public path
(Insert/GenerateInsert), starting from New() and threading the local clock,
completes and yields a document that still begins with the invisible start
sentinel and ends with the invisible end sentinel. -/
theorem c7_sentinels_preserved (site : Nat) (ops : List (Int × String)) :
    ∃ d c, applyInserts site (New, 0) ops = some (d, c) ∧
      (∃ s, d.Characters.head? = some s ∧ s.ID = startId ∧ s.Visible = false) ∧
      (∃ e, d.Characters.getLast? = some e ∧ e.ID = endId ∧ e.Visible = false) := by
  obtain ⟨d, c, happ, hwf⟩ :=
    applyInserts_wf site ops New 0 WellFormed_New (FreshFrom_New site)
  obtain ⟨s, e, hs0, he, hsid, hsvis, heid, hevis, _, _⟩ := hwf
  refine ⟨d, c, happ, ⟨s, ?_, hsid, hsvis⟩, ⟨e, ?_, heid, hevis⟩⟩
  · rw [← List.get?_zero]
    exact hs0
  · rw [List.getLast?_eq_get?]
    exact he

/-- C8: the broadcast loop of broadcastAllExcept is not aborted by a write
failure: every non-origin client whose write succeeds receives the message,
and every non-origin client whose write fails is deleted from the live client
table (so the next users broadcast, computed from that table, no longer
mentions it). -/
theorem c8_broadcast_eviction (snap : List SrvClient) (except : Nat) :
    (∀ c ∈ snap, c.id ≠ except → c.writeFails = false →
      c.id ∈ (broadcastAllExceptModel snap snap except).2) ∧
    (∀ c ∈ snap, c.writeFails = true → c.id ≠ except →
      c.id ∉ (broadcastAllExceptModel snap snap except).1.map (fun d => d.id)) := by
  constructor
  · intro c hc hce hcf
    exact bam_delivers snap snap except c hc hce hcf
  · intro c hc hcf hce hmem
    rcases List.mem_map.mp hmem with ⟨d, hd, hdid⟩
    exact bam_removed snap snap except c hc hcf hce d hd hdid

/-- Witness for C8 at the spec's eviction scenario: clients A, B, C; A (id 1)
is the origin; the write to B (id 2) fails; C (id 3) still receives the
message and B is absent from the resulting table. -/
theorem c8_witness :
    3 ∈ (broadcastAllExceptModel
      [{ id := 1, username := "A", writeFails := false },
        { id := 2, username := "B", writeFails := true },
        { id := 3, username := "C", writeFails := false }]
      [{ id := 1, username := "A", writeFails := false },
        { id := 2, username := "B", writeFails := true },
        { id := 3, username := "C", writeFails := false }] 1).2 ∧
    2 ∉ (broadcastAllExceptModel
      [{ id := 1, username := "A", writeFails := false },
        { id := 2, username := "B", writeFails := true },
        { id := 3, username := "C", writeFails := false }]
      [{ id := 1, username := "A", writeFails := false },
        { id := 2, username := "B", writeFails := true },
        { id := 3, username := "C", writeFails := false }] 1).1.map (fun d => d.id) :=
  ⟨(c8_broadcast_eviction
      [{ id := 1, username := "A", writeFails := false },
        { id := 2, username := "B", writeFails := true },
        { id := 3, username := "C", writeFails := false }] 1).1
      { id := 3, username := "C", writeFails := false } (by decide) (by decide) (by decide),
    (c8_broadcast_eviction
      [{ id := 1, username := "A", writeFails := false },
        { id := 2, username := "B", writeFails := true },
        { id := 3, username := "C", writeFails := false }] 1).2
      { id := 2, username := "B", writeFails := true } (by decide) (by decide) (by decide)⟩

/-- C9 counterexample: after typing "cat" the stored prev/next ids do NOT
record the neighbours at insertion time.  After the first two inserts the
character "12" was generated with IDNext = "end" (its next neighbour at its
insertion), but the third insert mutates it: in the final document the
character "12" carries IDNext = "13" ≠ "end". -/
theorem c9_counterexample :
    applyInserts 1 (New, 0) [(1, ("c")), (2, ("a"))] =
      some (⟨[
        { ID := "start", Visible := false, Value := "", IDPrevious := "", IDNext := "11" },
        { ID := "11", Visible := true, Value := "c", IDPrevious := "start", IDNext := "12" },
        { ID := "12", Visible := true, Value := "a", IDPrevious := "11", IDNext := "end" },
        { ID := "end", Visible := false, Value := "", IDPrevious := "12", IDNext := "" }]⟩, 2) ∧
    applyInserts 1 (New, 0) [(1, ("c")), (2, ("a")), (3, ("t"))] =
      some (⟨[
        { ID := "start", Visible := false, Value := "", IDPrevious := "", IDNext := "11" },
        { ID := "11", Visible := true, Value := "c", IDPrevious := "start", IDNext := "12" },
        { ID := "12", Visible := true, Value := "a", IDPrevious := "11", IDNext := "13" },
        { ID := "13", Visible := true, Value := "t", IDPrevious := "12", IDNext := "end" },
        { ID := "end", Visible := false, Value := "", IDPrevious := "13", IDNext := "" }]⟩, 3) ∧
    ("13" : String) ≠ "end" := by decide

/-- C9 amended: typing "cat" from New() at site 1 leaves the clock at 3, the
visible string "cat", and the three characters with ids "11", "12", "13" and
values "c", "a", "t" in order; the stored prev/next ids are the ids of the
final (current) neighbours, because each LocalInsert rewires the stored
pointers of the two adjacent characters (woot.go lines 170-171). -/
theorem c9_amended_typing_cat :
    applyInserts 1 (New, 0) [(1, ("c")), (2, ("a")), (3, ("t"))] =
      some (⟨[
        { ID := "start", Visible := false, Value := "", IDPrevious := "", IDNext := "11" },
        { ID := "11", Visible := true, Value := "c", IDPrevious := "start", IDNext := "12" },
        { ID := "12", Visible := true, Value := "a", IDPrevious := "11", IDNext := "13" },
        { ID := "13", Visible := true, Value := "t", IDPrevious := "12", IDNext := "end" },
        { ID := "end", Visible := false, Value := "", IDPrevious := "13", IDNext := "" }]⟩, 3) ∧
    Content ⟨[
        { ID := "start", Visible := false, Value := "", IDPrevious := "", IDNext := "11" },
        { ID := "11", Visible := true, Value := "c", IDPrevious := "start", IDNext := "12" },
        { ID := "12", Visible := true, Value := "a", IDPrevious := "11", IDNext := "13" },
        { ID := "13", Visible := true, Value := "t", IDPrevious := "12", IDNext := "end" },
        { ID := "end", Visible := false, Value := "", IDPrevious := "13", IDNext := "" }]⟩ = "cat" := by
  decide

/-- C10 counterexample: a document that contains both sentinel characters but
is not well-formed (a visible character with ID "end" sits before them), on
which Insert(2, v) reaches the PositionOutOfBounds branch through the public
Insert path. -/
theorem c10_counterexample :
    Insert ⟨[{ ID := "end", Visible := true, Value := "x", IDPrevious := "", IDNext := "" },
      CharacterStart, CharacterEnd]⟩ 1 0 2 ("v") =
      some (("x", some Err.positionOutOfBounds), 1) := by decide

/-- C10 amended: on every WELL-FORMED document (start sentinel first, end
sentinel last, distinct ids) and for every integer position and value, Insert
returns no error: the fallback to the sentinels makes the error branches
unreachable through the public Insert path. -/
theorem c10_amended_no_error (doc : Document) (site clock : Nat) (position : Int)
    (value : String) (hwf : WellFormed doc) :
    ∃ r clock1, Insert doc site clock position value = some (r, clock1) ∧ r.2 = none := by
  obtain ⟨q, _, _, heq⟩ := GenerateInsert_success doc site clock position value hwf
  rw [Insert, heq]
  exact ⟨_, _, rfl, rfl⟩

/-- Witness for C10 on the fresh document at the out-of-range position -7. -/
theorem c10_witness :
    WellFormed New ∧
    ∃ r clock1, Insert New 1 0 (-7) ("z") = some (r, clock1) ∧ r.2 = none :=
  ⟨WellFormed_New, c10_amended_no_error New 1 0 (-7) ("z") WellFormed_New⟩

end Pairpad
